import Mathlib

/-!
Shallow embedding of the single-entry LR wrapper inductor
(src/supervised_single_entry_lr_wrapper.py) and a verification of the
specification's claims about it.

Modelling conventions:

* Python strings are lists of characters (`Doc`); the slice `s[a:b]` is
  `pySlice` (with Python's negative-index and clamping semantics),
  `s.find(u)` is `pyFind` (yielding `-1` when absent), `u in s` is
  `pyIn u s`, `s.startswith(u)` is `List.isPrefixOf u s` and
  `s.endswith(u)` is `List.isSuffixOf u s`.
* The Python sets built by the learner (neighbor sets, candidate sets,
  attribute-instance sets) are modelled as lists in construction order.
  Every use the source makes of those sets is a universally quantified
  test (`all`), a minimum by length, or a linear scan for the first
  valid element, so deduplication is irrelevant; CPython's
  hash-dependent iteration order is determinised here to insertion
  order, which is the order the spec (section 4.1) describes.  Theorems
  whose content depends on that order say so in their doc comments.
* `min(ns, key=len)` is `minByLen?`, returning the first element of
  minimal length and `none` on the empty list (where Python raises
  `ValueError`).
* Construction (`SingleEntryLRWrapper.__init__`) is `mkWrapper`; it
  returns `Except.error` exactly where the Python code raises (empty
  label list, or a `min` over an empty neighbor set).  File loading is
  outside the model: `mkWrapper` receives the document texts directly,
  and `enumerate(self.examples)` indexing `self.labels[i]` is rendered
  as `List.zip`, which agrees with the source on the interface's
  well-formed inputs (parallel lists of equal length, every label row
  of length `num_attributes`).
* `execLR` is a literal transcription of the extraction loop, including
  the `find() = -1` arithmetic and Python's slice semantics for the
  resulting negative indices.
-/

deriving instance DecidableEq for Except

namespace LRW

abbrev Doc := List Char
abbrev Span := Nat × Nat
abbrev LabelRow := List Span

/-- Python slice-index normalisation: an `Int` endpoint of `s[a:b]` is shifted
by the length when negative and clamped into `[0, n]`. -/
def sliceIdx (n : Nat) (i : Int) : Nat :=
  if i < 0 then (i + n).toNat else min i.toNat n

/-- Python `s[a:b]` (step 1). -/
def pySlice (s : Doc) (a b : Int) : Doc :=
  (s.take (sliceIdx s.length b)).drop (sliceIdx s.length a)

/-- Python `s[a:]`. -/
def pySliceFrom (s : Doc) (a : Int) : Doc :=
  s.drop (sliceIdx s.length a)

/-- Python `s.find(u)`: the smallest index at which `u` occurs in `s`, and
`-1` when `u` does not occur. -/
def pyFind (s u : Doc) : Int :=
  match (List.range (s.length + 1)).find? (fun i => u.isPrefixOf (s.drop i)) with
  | some i => (i : Int)
  | none => -1

/-- Python `u in s` (substring containment). -/
def pyIn (u s : Doc) : Bool :=
  (List.range (s.length + 1)).any (fun i => u.isPrefixOf (s.drop i))

/-- Source function `ProperSuffix(u, s)`:
`s.endswith(u) and u not in s[:-len(u)]`. -/
def properSuffix (u s : Doc) : Bool :=
  u.isSuffixOf s && !(pyIn u (pySlice s 0 (-(u.length : Int))))

/-- Python `self.num_attributes = len(labels[0])`. -/
def numAttr (L : List LabelRow) : Nat := (L.headD []).length

/-- Label lookup `labels[i][k]`, on the well-formed domain `k < len(labels[i])`. -/
def spanAt (row : LabelRow) (k : Nat) : Span := row.getD k (0, 0)

/-- Pairs of `enumerate(self.examples)` with `self.labels[i]`. -/
def docPairs (E : List Doc) (L : List LabelRow) : List (Doc × LabelRow) :=
  E.zip L

/-- The text of attribute `k` in one document:
`P[labels[i][k][0]:labels[i][k][1]]`. -/
def attrOf (P : Doc) (row : LabelRow) (k : Nat) : Doc :=
  pySlice P ((spanAt row k).1 : Int) ((spanAt row k).2 : Int)

/-- One document's separator text between attributes `k` and `k+1`:
`P[labels[i][k][1]:labels[i][k+1][0]]`. -/
def sepOf (P : Doc) (row : LabelRow) (k : Nat) : Doc :=
  pySlice P ((spanAt row k).2 : Int) ((spanAt row (k + 1)).1 : Int)

/-- One document's head: `P[:labels[i][0][0]]`. -/
def headOf (P : Doc) (row : LabelRow) : Doc :=
  pySlice P 0 ((spanAt row 0).1 : Int)

/-- One document's tail: `P[labels[i][-1][1]:]`. -/
def tailOf (P : Doc) (row : LabelRow) : Doc :=
  pySliceFrom P ((row.getLastD (0, 0)).2 : Int)

/-- Source `attributes(k)`: the instances of attribute `k` across all examples. -/
def attributes (E : List Doc) (L : List LabelRow) (k : Nat) : List Doc :=
  (docPairs E L).map (fun pr => attrOf pr.1 pr.2 k)

/-- Source `Seps(k)`: empty when `k` is the last attribute index, otherwise the
separators between attributes `k` and `k+1` across all examples. -/
def Seps (E : List Doc) (L : List LabelRow) (k : Nat) : List Doc :=
  if k = numAttr L - 1 then []
  else (docPairs E L).map (fun pr => sepOf pr.1 pr.2 k)

/-- Source `example_heads()`. -/
def heads (E : List Doc) (L : List LabelRow) : List Doc :=
  (docPairs E L).map (fun pr => headOf pr.1 pr.2)

/-- Source `example_tails()`. -/
def tails (E : List Doc) (L : List LabelRow) : List Doc :=
  (docPairs E L).map (fun pr => tailOf pr.1 pr.2)

/-- Source `LeftNeighbors(k)`. -/
def leftNeighbors (E : List Doc) (L : List LabelRow) (k : Nat) : List Doc :=
  if k = 0 then Seps E L (numAttr L - 1) ++ heads E L
  else Seps E L (k - 1)

/-- Source `RightNeighbors(k)`. -/
def rightNeighbors (E : List Doc) (L : List LabelRow) (k : Nat) : List Doc :=
  if k = numAttr L - 1 then Seps E L (numAttr L - 1) ++ tails E L
  else Seps E L k

/-- Python `min(ns, key=len)`: first element of minimal length, `none` on `[]`
(where Python raises `ValueError`). -/
def minByLen? : List Doc → Option Doc
  | [] => none
  | x :: xs =>
    match minByLen? xs with
    | none => some x
    | some m => if m.length < x.length then some m else some x

/-- Source `IsValidLeft(u, k)`. -/
def isValidLeft (E : List Doc) (L : List LabelRow) (u : Doc) (k : Nat) : Bool :=
  (leftNeighbors E L k).all (fun s => properSuffix u s) &&
    (if k = 0 then (tails E L).all (fun s => !(pyIn u s)) else true)

/-- Source `IsValidRight(u, k)`. -/
def isValidRight (E : List Doc) (L : List LabelRow) (u : Doc) (k : Nat) : Bool :=
  (attributes E L k).all (fun s => !(pyIn u s)) &&
    (rightNeighbors E L k).all (fun s => u.isPrefixOf s)

/-- Comprehension `{shortest[i:] for i in range(len(shortest))}` in generation order (all
suffix lengths are distinct, so the set holds exactly these elements). -/
def suffListOf (sh : Doc) : List Doc :=
  (List.range sh.length).map (fun (i : Nat) => pySliceFrom sh (i : Int))

/-- Comprehension `{shortest[:i] for i in range(len(shortest))}` in generation order. -/
def prefListOf (sh : Doc) : List Doc :=
  (List.range sh.length).map (fun (i : Nat) => pySlice sh 0 (i : Int))

/-- Source `LeftCandidates(k)`; `none` when the neighbor set is empty and `min`
raises. -/
def leftCandidates (E : List Doc) (L : List LabelRow) (k : Nat) :
    Option (List Doc) :=
  (minByLen? (leftNeighbors E L k)).map suffListOf

/-- Source `RightCandidates(k)`. -/
def rightCandidates (E : List Doc) (L : List LabelRow) (k : Nat) :
    Option (List Doc) :=
  (minByLen? (rightNeighbors E L k)).map prefListOf

/-- The single string a new training document `(P, row)` contributes to
`RightNeighbors(k)` of a wrapper with `n` attributes: its tail when `k` is
the last attribute, otherwise its separator between attributes `k` and
`k+1`. -/
def rightNbOf (n : Nat) (P : Doc) (row : LabelRow) (k : Nat) : Doc :=
  if k = n - 1 then tailOf P row else sepOf P row k

/-- One iteration of `GetValidLeft`: the first candidate passing
`IsValidLeft`, the empty-string sentinel when none passes, `none` when
candidate generation raises. -/
def leftDelim (E : List Doc) (L : List LabelRow) (k : Nat) : Option Doc :=
  (leftCandidates E L k).map
    (fun c => (c.find? (fun u => isValidLeft E L u k)).getD [])

/-- One iteration of `GetValidRight`. -/
def rightDelim (E : List Doc) (L : List LabelRow) (k : Nat) : Option Doc :=
  (rightCandidates E L k).map
    (fun c => (c.find? (fun u => isValidRight E L u k)).getD [])

/-- The `for k in range(n)` loop of `GetValidLeft`/`GetValidRight`,
collecting the per-attribute delimiters; `none` as soon as some attribute's
neighbor set is empty (propagating the `ValueError` from `min`). -/
def delimsUpTo (f : Nat → Option Doc) : Nat → Option (List Doc)
  | 0 => some []
  | n + 1 =>
    match delimsUpTo f n, f n with
    | some ds, some d => some (ds ++ [d])
    | _, _ => none

/-- The state a `SingleEntryLRWrapper` object holds after `__init__`. -/
structure Wrapper where
  examples : List Doc
  labels : List LabelRow
  left : List Doc
  right : List Doc
deriving DecidableEq, Repr

/-- Constructor `SingleEntryLRWrapper.__init__`: fails on an empty label list, then
learns the left and right delimiter tables; an empty neighbor set makes
`min` raise, which surfaces as the second error. -/
def mkWrapper (E : List Doc) (L : List LabelRow) : Except String Wrapper :=
  if L.length = 0 then Except.error ("No training examples provided")
  else
    match delimsUpTo (leftDelim E L) (numAttr L),
          delimsUpTo (rightDelim E L) (numAttr L) with
    | some ls, some rs => Except.ok ⟨E, L, ls, rs⟩
    | _, _ => Except.error ("ValueError: min() arg is an empty sequence")

/-- The extraction loop of `execLR`, one `(l, r)` pair of
`zip(self.left, self.right)` at a time, threading the shrinking page. -/
def execLRAux : List (Doc × Doc) → Doc → List Doc
  | [], _ => []
  | lr :: rest, P =>
    let lIdx : Int := pyFind P lr.1 + (lr.1.length : Int)
    let rIdx : Int := pyFind (pySliceFrom P lIdx) lr.2 + lIdx
    pySlice P lIdx rIdx :: execLRAux rest (pySliceFrom P rIdx)

/-- Method `execLR(self, P)`. -/
def execLR (w : Wrapper) (P : Doc) : List Doc :=
  execLRAux (w.left.zip w.right) P

/-- State-passing form of the method call `self.execLR(P)`: the method body
reads `self.left` and `self.right` and assigns only its local variables, so
the object state it returns is field-for-field the state it received. -/
def execLRS (w : Wrapper) (P : Doc) : Wrapper × List Doc :=
  (⟨w.examples, w.labels, w.left, w.right⟩, execLR w P)

/-- Training document 0 of the spec's end-to-end scenario (section 8). -/
def exA : Doc := "Name: Alice Age: 30".toList

/-- Training document 1 of the spec's end-to-end scenario. -/
def exB : Doc := "Name: Bob Age: 45".toList

/-- Spans of "Alice" and "30" in `exA`. -/
def labA : LabelRow := [(6, 11), (17, 19)]

/-- Spans of "Bob" and "45" in `exB`. -/
def labB : LabelRow := [(6, 9), (15, 17)]

def ex2 : List Doc := [exA, exB]

def lab2 : List LabelRow := [labA, labB]

/-- The query document of the spec's end-to-end scenario. -/
def exC : Doc := "Name: Carol Age: 22".toList

/-- A query document sharing the `Age` part of the template but missing
`left[0]`, used to exhibit the `find() = -1` slicing behaviour. -/
def exQ : Doc := "xxxxxxxxxx Age: 22".toList

/-- A single training document whose head suffixes all recur in its tail, so
no left-delimiter candidate validates for attribute 0. -/
def exNV : Doc := "abXab".toList

/-- Label row for `exNV`: the attribute is the `X` at offsets `[2, 3)`. -/
def labNV : LabelRow := [(2, 3)]

/-- Training document for the C9 monotonicity scenario: attribute `X` at
`[1, 2)`, tail `bcd`. -/
def exM1 : Doc := "aXbcd".toList

/-- Added training document for the C9 scenario: attribute `Y` at `[1, 2)`,
tail `bc`, a strictly shorter right neighbor. -/
def exM2 : Doc := "aYbc".toList

/-- Label row shared by `exM1` and `exM2`. -/
def labM : LabelRow := [(1, 2)]

/-! Properties of the Python string primitives -/

/-- Boolean `List.isPrefixOf` decides `startswith`: it holds exactly when the second
list extends the first. -/
theorem isPrefixOfE (u s : Doc) : u.isPrefixOf s = true ↔ ∃ t, u ++ t = s := by
  induction u generalizing s with
  | nil => simp
  | cons a as ih =>
    cases s with
    | nil => simp [List.isPrefixOf]
    | cons b bs =>
      simp only [List.isPrefixOf, Bool.and_eq_true, beq_iff_eq, List.cons_append,
        List.cons.injEq, ih]
      constructor
      · rintro ⟨rfl, t, rfl⟩
        exact ⟨t, rfl, rfl⟩
      · rintro ⟨t, rfl, rfl⟩
        exact ⟨rfl, t, rfl⟩

/-- Boolean `List.isSuffixOf` decides `endswith`. -/
theorem isSuffixOfE (u s : Doc) : u.isSuffixOf s = true ↔ ∃ t, t ++ u = s := by
  show u.reverse.isPrefixOf s.reverse = true ↔ _
  rw [isPrefixOfE]
  constructor
  · rintro ⟨t, ht⟩
    refine ⟨t.reverse, ?_⟩
    have h2 := congrArg List.reverse ht
    simpa using h2
  · rintro ⟨t, rfl⟩
    exact ⟨t.reverse, by simp⟩

/-- Boolean `pyIn` decides substring containment. -/
theorem pyInE (u s : Doc) : pyIn u s = true ↔ ∃ a b, a ++ u ++ b = s := by
  unfold pyIn
  rw [List.any_eq_true]
  constructor
  · rintro ⟨i, hi, hp⟩
    obtain ⟨t, ht⟩ := (isPrefixOfE _ _).1 hp
    exact ⟨s.take i, t, by rw [List.append_assoc, ht, List.take_append_drop]⟩
  · rintro ⟨a, b, rfl⟩
    refine ⟨a.length, ?_, ?_⟩
    · rw [List.mem_range]
      simp [List.length_append]
      omega
    · rw [isPrefixOfE]
      refine ⟨b, ?_⟩
      rw [List.append_assoc, List.drop_left]

/-- Substring non-containment, in the form the validity checks use. -/
theorem pyInF (u s : Doc) : pyIn u s = false ↔ ¬ ∃ a b, a ++ u ++ b = s := by
  rw [← pyInE]
  simp

/-- The empty string is a substring of every string. -/
theorem pyIn_nil (s : Doc) : pyIn [] s = true :=
  (pyInE [] s).2 ⟨[], s, by simp⟩

/-- A nonnegative slice endpoint normalises to a clamped `Nat`. -/
theorem sliceIdx_natCast (n i : Nat) : sliceIdx n (i : Int) = min i n := by
  unfold sliceIdx
  rw [if_neg (by omega)]
  simp

/-- The slice endpoint `0` normalises to `0`. -/
theorem sliceIdx_zero (n : Nat) : sliceIdx n 0 = 0 := by
  unfold sliceIdx
  rw [if_neg (by omega)]
  simp

/-- A negative slice endpoint `-m` normalises to `n - m`. -/
theorem sliceIdx_negNat (n m : Nat) (h : 1 ≤ m) : sliceIdx n (-(m : Int)) = n - m := by
  unfold sliceIdx
  rw [if_pos (by omega)]
  omega

/-- Slicing `s[i:]` for a nonnegative index is `List.drop`. -/
theorem pySliceFromNat (s : Doc) (i : Nat) : pySliceFrom s (i : Int) = s.drop i := by
  unfold pySliceFrom
  rw [sliceIdx_natCast]
  rcases Nat.le_total i s.length with h | h
  · rw [Nat.min_eq_left h]
  · rw [Nat.min_eq_right h, List.drop_length, List.drop_eq_nil_of_le h]

/-- Slicing `s[0:i]` for a nonnegative index is `List.take`. -/
theorem pySliceTake (s : Doc) (i : Nat) : pySlice s 0 (i : Int) = s.take i := by
  unfold pySlice
  rw [sliceIdx_zero, sliceIdx_natCast, List.drop_zero]
  rcases Nat.le_total i s.length with h | h
  · rw [Nat.min_eq_left h]
  · rw [Nat.min_eq_right h, List.take_length, List.take_of_length_le h]

/-- For nonempty `u`, the slice `s[:-len(u)]` drops the last `len(u)`
characters. -/
theorem pySliceNegLen (s u : Doc) (h : u ≠ []) :
    pySlice s 0 (-(u.length : Int)) = s.take (s.length - u.length) := by
  have hl : 1 ≤ u.length := by
    have h2 := List.length_pos.2 h
    omega
  unfold pySlice
  rw [sliceIdx_zero, sliceIdx_negNat _ _ hl, List.drop_zero]

/-- A boolean prefix test pins down the `take` of its target. -/
theorem takeOfPref {u s : Doc} (h : u.isPrefixOf s = true) : s.take u.length = u := by
  obtain ⟨t, rfl⟩ := (isPrefixOfE u s).1 h
  exact List.take_left u t

/-! Properties of the minimum selection, the candidate lists and the first-valid scan -/

/-- Python `min` fails exactly on the empty collection. -/
theorem minByLen?_eq_none : ∀ l : List Doc, minByLen? l = none ↔ l = []
  | [] => by simp [minByLen?]
  | x :: xs => by
    simp only [minByLen?]
    cases hxs : minByLen? xs with
    | none => simp
    | some m =>
      by_cases hm : m.length < x.length <;> simp [hm]

/-- The selected minimum belongs to the collection. -/
theorem minByLen?_mem : ∀ {l : List Doc} {m : Doc}, minByLen? l = some m → m ∈ l := by
  intro l
  induction l with
  | nil => intro m h; simp [minByLen?] at h
  | cons x xs ih =>
    intro m h
    cases hxs : minByLen? xs with
    | none =>
      simp only [minByLen?, hxs] at h
      injection h with h
      subst h
      exact List.mem_cons_self x xs
    | some m0 =>
      simp only [minByLen?, hxs] at h
      by_cases hm : m0.length < x.length
      · rw [if_pos hm] at h
        injection h with h
        subst h
        exact List.mem_cons_of_mem x (ih hxs)
      · rw [if_neg hm] at h
        injection h with h
        subst h
        exact List.mem_cons_self x xs

/-- The selected minimum has minimal length. -/
theorem minByLen?_le : ∀ {l : List Doc} {m : Doc}, minByLen? l = some m →
    ∀ x ∈ l, m.length ≤ x.length := by
  intro l
  induction l with
  | nil => intro m h; simp [minByLen?] at h
  | cons x xs ih =>
    intro m h y hy
    cases hxs : minByLen? xs with
    | none =>
      simp only [minByLen?, hxs] at h
      injection h with h
      subst h
      rcases List.mem_cons.1 hy with rfl | hy2
      · exact Nat.le_refl _
      · have hnil : xs = [] := (minByLen?_eq_none xs).1 hxs
        rw [hnil] at hy2
        simp at hy2
    | some m0 =>
      simp only [minByLen?, hxs] at h
      by_cases hm : m0.length < x.length
      · rw [if_pos hm] at h
        injection h with h
        subst h
        rcases List.mem_cons.1 hy with rfl | hy2
        · exact Nat.le_of_lt hm
        · exact ih hxs y hy2
      · rw [if_neg hm] at h
        injection h with h
        subst h
        rcases List.mem_cons.1 hy with rfl | hy2
        · exact Nat.le_refl _
        · exact Nat.le_trans (Nat.le_of_not_lt hm) (ih hxs y hy2)

/-- Appending a strictly shorter string makes it the selected minimum. -/
theorem minByLen?_concat_lt {y : Doc} : ∀ {l : List Doc},
    (∀ x ∈ l, y.length < x.length) → minByLen? (l ++ [y]) = some y := by
  intro l
  induction l with
  | nil => intro _; simp [minByLen?]
  | cons x xs ih =>
    intro h
    have hxs := ih (fun z hz => h z (List.mem_cons_of_mem x hz))
    have hx := h x (List.mem_cons_self x xs)
    simp only [List.cons_append, minByLen?, List.append_eq, hxs]
    rw [if_pos hx]

/-- The list `List.range n` is pairwise increasing with all elements below `n`. -/
theorem pairwiseRangeLt (n : Nat) :
    (List.range n).Pairwise (fun i j => i < j ∧ j < n) := by
  induction n with
  | zero => simp
  | succ n ih =>
    rw [List.range_succ, List.pairwise_append]
    refine ⟨ih.imp (fun h => ⟨h.1, Nat.lt_succ_of_lt h.2⟩), by simp, ?_⟩
    intro a ha b hb
    rw [List.mem_range] at ha
    simp only [List.mem_singleton] at hb
    subst hb
    exact ⟨ha, Nat.lt_succ_self _⟩

/-- Lengths of the generated suffix candidates. -/
theorem suffListLen (sh : Doc) (i : Nat) :
    (pySliceFrom sh (i : Int)).length = sh.length - i := by
  rw [pySliceFromNat, List.length_drop]

/-- Lengths of the generated prefix candidates. -/
theorem prefListLen {sh : Doc} {i : Nat} (h : i < sh.length) :
    (pySlice sh 0 (i : Int)).length = i := by
  rw [pySliceTake, List.length_take]
  omega

/-- The suffix-candidate list is strictly decreasing in length. -/
theorem suffListPairwise (sh : Doc) :
    (suffListOf sh).Pairwise (fun a b => b.length < a.length) := by
  unfold suffListOf
  rw [List.pairwise_map]
  refine (pairwiseRangeLt sh.length).imp ?_
  intro i j h
  rw [suffListLen sh i, suffListLen sh j]
  omega

/-- The prefix-candidate list is strictly increasing in length. -/
theorem prefListPairwise (sh : Doc) :
    (prefListOf sh).Pairwise (fun a b => a.length < b.length) := by
  unfold prefListOf
  rw [List.pairwise_map]
  refine (pairwiseRangeLt sh.length).imp ?_
  intro i j h
  rw [prefListLen (Nat.lt_trans h.1 h.2), prefListLen h.2]
  exact h.1

/-- On a length-increasing list, the first element passing a test has
minimal length among all passing elements. -/
theorem findMinLen {p : Doc → Bool} {d : Doc} : ∀ {cs : List Doc},
    cs.Pairwise (fun a b => a.length < b.length) → cs.find? p = some d →
    ∀ u ∈ cs, p u = true → d.length ≤ u.length := by
  intro cs
  induction cs with
  | nil => intro _ h; simp at h
  | cons c rest ih =>
    intro hpw hfind u hu hpu
    rw [List.pairwise_cons] at hpw
    by_cases hc : p c = true
    · rw [List.find?_cons_of_pos _ hc] at hfind
      injection hfind with hfind
      subst hfind
      rcases List.mem_cons.1 hu with rfl | hu2
      · exact Nat.le_refl _
      · exact Nat.le_of_lt (hpw.1 u hu2)
    · rw [List.find?_cons_of_neg _ hc] at hfind
      rcases List.mem_cons.1 hu with rfl | hu2
      · exact absurd hpu hc
      · exact ih hpw.2 hfind u hu2 hpu

/-- On a length-decreasing list, the first element passing a test has
maximal length among all passing elements. -/
theorem findMaxLen {p : Doc → Bool} {d : Doc} : ∀ {cs : List Doc},
    cs.Pairwise (fun a b => b.length < a.length) → cs.find? p = some d →
    ∀ u ∈ cs, p u = true → u.length ≤ d.length := by
  intro cs
  induction cs with
  | nil => intro _ h; simp at h
  | cons c rest ih =>
    intro hpw hfind u hu hpu
    rw [List.pairwise_cons] at hpw
    by_cases hc : p c = true
    · rw [List.find?_cons_of_pos _ hc] at hfind
      injection hfind with hfind
      subst hfind
      rcases List.mem_cons.1 hu with rfl | hu2
      · exact Nat.le_refl _
      · exact Nat.le_of_lt (hpw.1 u hu2)
    · rw [List.find?_cons_of_neg _ hc] at hfind
      rcases List.mem_cons.1 hu with rfl | hu2
      · exact absurd hpu hc
      · exact ih hpw.2 hfind u hu2 hpu

/-- Membership in the suffix-candidate list: exactly the nonempty suffixes
of the shortest neighbor. -/
theorem memSuffList {u sh : Doc} :
    u ∈ suffListOf sh ↔ (u ≠ [] ∧ ∃ t, t ++ u = sh) := by
  unfold suffListOf
  rw [List.mem_map]
  constructor
  · rintro ⟨i, hi, rfl⟩
    rw [List.mem_range] at hi
    rw [pySliceFromNat]
    refine ⟨?_, sh.take i, List.take_append_drop i sh⟩
    intro hnil
    have hlen := congrArg List.length hnil
    rw [List.length_drop] at hlen
    simp at hlen
    omega
  · rintro ⟨hne, t, rfl⟩
    refine ⟨t.length, ?_, ?_⟩
    · rw [List.mem_range, List.length_append]
      have h1 := List.length_pos.2 hne
      omega
    · rw [pySliceFromNat]
      exact List.drop_left t u

/-- Membership in the prefix-candidate list: exactly the proper prefixes
(the full string excluded, the empty string included) of the shortest
neighbor. -/
theorem memPrefList {u sh : Doc} :
    u ∈ prefListOf sh ↔ (u ≠ sh ∧ ∃ t, u ++ t = sh) := by
  unfold prefListOf
  rw [List.mem_map]
  constructor
  · rintro ⟨i, hi, rfl⟩
    rw [List.mem_range] at hi
    rw [pySliceTake]
    refine ⟨?_, sh.drop i, List.take_append_drop i sh⟩
    intro heq
    have hlen := congrArg List.length heq
    rw [List.length_take] at hlen
    omega
  · rintro ⟨hne, t, rfl⟩
    refine ⟨u.length, ?_, ?_⟩
    · rw [List.mem_range, List.length_append]
      have ht : t ≠ [] := by
        rintro rfl
        simp at hne
      have h1 := List.length_pos.2 ht
      omega
    · rw [pySliceTake]
      exact List.take_left u t

/-! Properties of the learning loop -/

/-- The collected delimiter list has one entry per attribute, each produced
by the corresponding loop iteration. -/
theorem delimsUpTo_get? {f : Nat → Option Doc} : ∀ {n : Nat} {ds : List Doc},
    delimsUpTo f n = some ds → ds.length = n ∧ ∀ k, k < n → ds.get? k = f k := by
  intro n
  induction n with
  | zero =>
    intro ds h
    simp only [delimsUpTo] at h
    injection h with h
    subst h
    exact ⟨rfl, fun k hk => absurd hk (Nat.not_lt_zero k)⟩
  | succ n ih =>
    intro ds h
    cases h1 : delimsUpTo f n with
    | none =>
      simp only [delimsUpTo, h1] at h
      exact Option.noConfusion h
    | some ds0 =>
      cases h2 : f n with
      | none =>
        simp only [delimsUpTo, h1, h2] at h
        exact Option.noConfusion h
      | some d =>
        simp only [delimsUpTo, h1, h2] at h
        injection h with h
        subst h
        obtain ⟨hlen, hget⟩ := ih h1
        refine ⟨by simp [hlen], ?_⟩
        intro k hk
        rcases Nat.lt_or_ge k n with hk2 | hk2
        · rw [List.get?_append (by rw [hlen]; exact hk2)]
          exact hget k hk2
        · have hkn : k = n := by omega
          subst hkn
          have h3 := List.get?_concat_length ds0 d
          rw [hlen] at h3
          rw [h3, h2]

/-- The learning loop succeeds when every iteration does. -/
theorem delimsUpTo_isSome {f : Nat → Option Doc} : ∀ {n : Nat},
    (∀ k, k < n → (f k).isSome = true) → (delimsUpTo f n).isSome = true := by
  intro n
  induction n with
  | zero => intro _; simp [delimsUpTo]
  | succ n ih =>
    intro h
    obtain ⟨ds, hds⟩ :=
      Option.isSome_iff_exists.1 (ih (fun k hk => h k (Nat.lt_succ_of_lt hk)))
    obtain ⟨d, hd⟩ := Option.isSome_iff_exists.1 (h n (Nat.lt_succ_self n))
    simp [delimsUpTo, hds, hd]

/-- With at least one document and one label row, the zipped corpus is
nonempty. -/
theorem docPairs_ne_nil {E : List Doc} {L : List LabelRow}
    (hE : E ≠ []) (hL : L ≠ []) : docPairs E L ≠ [] := by
  cases E with
  | nil => exact absurd rfl hE
  | cons e E2 =>
    cases L with
    | nil => exact absurd rfl hL
    | cons l L2 => simp [docPairs]

/-- On a nonempty corpus, every in-range attribute has a nonempty left
neighbor collection, so `min` cannot fail. -/
theorem leftNeighbors_ne_nil {E : List Doc} {L : List LabelRow} {k : Nat}
    (hE : E ≠ []) (hL : L ≠ []) (hk : k < numAttr L) :
    leftNeighbors E L k ≠ [] := by
  unfold leftNeighbors
  by_cases h0 : k = 0
  · rw [if_pos h0]
    intro hcon
    rw [List.append_eq_nil] at hcon
    have h2 := hcon.2
    unfold heads at h2
    exact docPairs_ne_nil hE hL (List.map_eq_nil_iff.1 h2)
  · rw [if_neg h0]
    unfold Seps
    rw [if_neg (by omega)]
    intro hcon
    exact docPairs_ne_nil hE hL (List.map_eq_nil_iff.1 hcon)

/-- On a nonempty corpus, every in-range attribute has a nonempty right
neighbor collection. -/
theorem rightNeighbors_ne_nil {E : List Doc} {L : List LabelRow} {k : Nat}
    (hE : E ≠ []) (hL : L ≠ []) (hk : k < numAttr L) :
    rightNeighbors E L k ≠ [] := by
  unfold rightNeighbors
  by_cases hlast : k = numAttr L - 1
  · rw [if_pos hlast]
    intro hcon
    rw [List.append_eq_nil] at hcon
    have h2 := hcon.2
    unfold tails at h2
    exact docPairs_ne_nil hE hL (List.map_eq_nil_iff.1 h2)
  · rw [if_neg hlast]
    unfold Seps
    rw [if_neg hlast]
    intro hcon
    exact docPairs_ne_nil hE hL (List.map_eq_nil_iff.1 hcon)

/-- Loop `GetValidLeft` cannot raise on a nonempty corpus. -/
theorem leftDelim_isSome {E : List Doc} {L : List LabelRow} {k : Nat}
    (hE : E ≠ []) (hL : L ≠ []) (hk : k < numAttr L) :
    (leftDelim E L k).isSome = true := by
  unfold leftDelim leftCandidates
  cases hmin : minByLen? (leftNeighbors E L k) with
  | none => exact absurd ((minByLen?_eq_none _).1 hmin) (leftNeighbors_ne_nil hE hL hk)
  | some sh => simp

/-- Loop `GetValidRight` cannot raise on a nonempty corpus. -/
theorem rightDelim_isSome {E : List Doc} {L : List LabelRow} {k : Nat}
    (hE : E ≠ []) (hL : L ≠ []) (hk : k < numAttr L) :
    (rightDelim E L k).isSome = true := by
  unfold rightDelim rightCandidates
  cases hmin : minByLen? (rightNeighbors E L k) with
  | none => exact absurd ((minByLen?_eq_none _).1 hmin) (rightNeighbors_ne_nil hE hL hk)
  | some sh => simp

/-! Effect of appending one training document -/

/-- Appending a document does not change the attribute count read from the
first label row. -/
theorem numAttr_concat {L : List LabelRow} (Rn : LabelRow) (hL : L ≠ []) :
    numAttr (L ++ [Rn]) = numAttr L := by
  cases L with
  | nil => exact absurd rfl hL
  | cons r L2 => rfl

/-- Appending a document appends one pair to the zipped corpus. -/
theorem docPairs_concat {E : List Doc} {L : List LabelRow} (Pn : Doc)
    (Rn : LabelRow) (hEL : E.length = L.length) :
    docPairs (E ++ [Pn]) (L ++ [Rn]) = docPairs E L ++ [(Pn, Rn)] := by
  unfold docPairs
  rw [List.zip_append hEL]
  rfl

/-- Appending a document appends its attribute-`k` instance. -/
theorem attributes_concat {E : List Doc} {L : List LabelRow} (Pn : Doc)
    (Rn : LabelRow) (k : Nat) (hEL : E.length = L.length) :
    attributes (E ++ [Pn]) (L ++ [Rn]) k = attributes E L k ++ [attrOf Pn Rn k] := by
  unfold attributes
  rw [docPairs_concat Pn Rn hEL, List.map_append]
  rfl

/-- Appending a document appends its tail. -/
theorem tails_concat {E : List Doc} {L : List LabelRow} (Pn : Doc)
    (Rn : LabelRow) (hEL : E.length = L.length) :
    tails (E ++ [Pn]) (L ++ [Rn]) = tails E L ++ [tailOf Pn Rn] := by
  unfold tails
  rw [docPairs_concat Pn Rn hEL, List.map_append]
  rfl

/-- Appending a document appends its separator to a non-final `Seps`. -/
theorem Seps_concat_ne {E : List Doc} {L : List LabelRow} {k : Nat} (Pn : Doc)
    (Rn : LabelRow) (hEL : E.length = L.length) (hL : L ≠ [])
    (hk : k ≠ numAttr L - 1) :
    Seps (E ++ [Pn]) (L ++ [Rn]) k = Seps E L k ++ [sepOf Pn Rn k] := by
  unfold Seps
  rw [numAttr_concat Rn hL, if_neg hk, if_neg hk, docPairs_concat Pn Rn hEL,
    List.map_append]
  rfl

/-- The final `Seps` stays empty after appending a document. -/
theorem Seps_concat_last {E : List Doc} {L : List LabelRow} (Pn : Doc)
    (Rn : LabelRow) (hL : L ≠ []) :
    Seps (E ++ [Pn]) (L ++ [Rn]) (numAttr L - 1) = [] := by
  unfold Seps
  rw [numAttr_concat Rn hL, if_pos rfl]

/-- Appending a document appends exactly one string, `rightNbOf`, to the
right neighbor collection of every attribute. -/
theorem rightNeighbors_concat {E : List Doc} {L : List LabelRow} {k : Nat}
    (Pn : Doc) (Rn : LabelRow) (hEL : E.length = L.length) (hL : L ≠ []) :
    rightNeighbors (E ++ [Pn]) (L ++ [Rn]) k =
      rightNeighbors E L k ++ [rightNbOf (numAttr L) Pn Rn k] := by
  unfold rightNeighbors rightNbOf
  rw [numAttr_concat Rn hL]
  by_cases hlast : k = numAttr L - 1
  · rw [if_pos hlast, if_pos hlast, if_pos hlast]
    subst hlast
    rw [Seps_concat_last Pn Rn hL, tails_concat Pn Rn hEL]
    unfold Seps
    rw [if_pos rfl]
    simp
  · rw [if_neg hlast, if_neg hlast, if_neg hlast]
    exact Seps_concat_ne Pn Rn hEL hL hlast

/-- A right delimiter valid after the addition of a training document was
already valid before it: both validity conditions quantify over supersets. -/
theorem isValidRight_concat {E : List Doc} {L : List LabelRow} {u : Doc}
    {k : Nat} (Pn : Doc) (Rn : LabelRow) (hEL : E.length = L.length)
    (hL : L ≠ [])
    (h : isValidRight (E ++ [Pn]) (L ++ [Rn]) u k = true) :
    isValidRight E L u k = true := by
  unfold isValidRight at h ⊢
  rw [attributes_concat Pn Rn k hEL, rightNeighbors_concat Pn Rn hEL hL,
    List.all_append, List.all_append, Bool.and_eq_true, Bool.and_eq_true,
    Bool.and_eq_true] at h
  rw [Bool.and_eq_true]
  exact ⟨h.1.1, h.2.1⟩

/-! The claims -/

/-- Claim C1 (evidence for the code_bug verdict): on the wrapper learned
from the spec's own two training documents, `execLR` applied to training
document 0 returns `""` for attribute 1 where the labelled span text is
`"30"` — training-set round-trip fidelity fails.  The learned `right[1]`
is the empty-string fallback sentinel (the tails are empty, so the
right-candidate list for the last attribute is empty), and an empty right
delimiter makes `P[l_idx:].find("") = 0` collapse the extracted value to
the empty string.  Attribute 0 round-trips; the failure is independent of
CPython's set-iteration order, since every validating choice of `left[0]`,
`right[0]` and `left[1]` locates the same cut positions on this corpus. -/
theorem c1_roundtrip_fails_on_training :
    (mkWrapper ex2 lab2).map (fun w => execLR w exA) =
      Except.ok (["Alice".toList, ([] : Doc)]) ∧
    attrOf exA labA 0 = "Alice".toList ∧
    attrOf exA labA 1 = "30".toList ∧
    ([] : Doc) ≠ "30".toList :=
  ⟨by decide, by decide, by decide, by decide⟩

/-- Claim C2 (counterexample): the end-to-end scenario does not extract
`["Carol", "22"]` from the query document — the code returns
`["Carol", ""]`, whatever iteration order CPython's sets take, because
`right[1]` is the empty sentinel. -/
theorem c2_extraction_ne_spec :
    (mkWrapper ex2 lab2).map (fun w => execLR w exC) ≠
      Except.ok (["Carol".toList, "22".toList]) := by decide

/-- Claim C2 (amended): the scenario learns `right[1] = ""` only as the
no-candidate fallback sentinel, and extraction on the query document
returns `["Carol", ""]`.  Under this embedding's determinisation of set
iteration to insertion order the learned table is `left = ["Name: ",
" Age: "]`, `right = [" ", ""]`; in CPython the three validated entries
depend on hash-based set order (`left[0]` is any of the six suffixes of
`"Name: "`, etc.), but the extraction output `["Carol", ""]` does not. -/
theorem c2_scenario_actual :
    mkWrapper ex2 lab2 =
      Except.ok ⟨ex2, lab2, ["Name: ".toList, " Age: ".toList],
        [" ".toList, ([] : Doc)]⟩ ∧
    (mkWrapper ex2 lab2).map (fun w => execLR w exC) =
      Except.ok (["Carol".toList, ([] : Doc)]) ∧
    rightCandidates ex2 lab2 1 = some [] :=
  ⟨by decide, by decide, by decide⟩

/-- Claim C3 (evidence for the code_bug verdict): on a query document in
which the learned `left[0] = "Name: "` does not occur (`find` yields `-1`),
`execLR` does not report a miss: the `-1 + len(l)` arithmetic starts the
slice at index 5 inside the document and returns the garbled nonempty
substring `"xxxxx"` for attribute 0.  The loop does continue with the
remaining attribute (that half of the claim matches the code). -/
theorem c3_miss_garbled :
    (mkWrapper ex2 lab2).map (fun w => w.left.getD 0 []) =
      Except.ok ("Name: ".toList) ∧
    pyFind exQ ("Name: ".toList) = -1 ∧
    (mkWrapper ex2 lab2).map (fun w => execLR w exQ) =
      Except.ok (["xxxxx".toList, ([] : Doc)]) ∧
    "xxxxx".toList ≠ ([] : Doc) :=
  ⟨by decide, by decide, by decide, by decide⟩

/-- Claim C4 (counterexample): the left-candidate set is not "all suffixes
including the empty suffix": `LeftCandidates` is built from
`range(len(shortest))`, so for attribute 0 of the scenario corpus it holds
exactly the six nonempty suffixes of `"Name: "` and the empty string is
not among them. -/
theorem c4_empty_suffix_not_candidate :
    leftCandidates ex2 lab2 0 =
      some ["Name: ".toList, "ame: ".toList, "me: ".toList, "e: ".toList,
        ": ".toList, " ".toList] ∧
    ¬ (([] : Doc) ∈ ["Name: ".toList, "ame: ".toList, "me: ".toList,
        "e: ".toList, ": ".toList, " ".toList]) :=
  ⟨by decide, by decide⟩

/-- Claim C4 (amended): the left-candidate collection is exactly the set of
nonempty suffixes of the shortest left neighbor (full string included,
empty suffix excluded); the right-candidate collection is exactly the set
of proper prefixes of the shortest right neighbor (empty prefix included,
full string excluded); and `GetValidLeft` picks the first candidate in
longest-to-shortest generation order that passes `IsValidLeft`, which is
therefore the longest valid suffix.  The order statement is about this
embedding's determinisation of CPython's unspecified set-iteration order
to insertion order, the order the spec itself describes. -/
theorem c4_candidates_amended
    (E : List Doc) (L : List LabelRow) (k : Nat) (shL shR : Doc)
    (hminL : minByLen? (leftNeighbors E L k) = some shL)
    (hminR : minByLen? (rightNeighbors E L k) = some shR) :
    (∀ u, u ∈ (leftCandidates E L k).getD [] ↔ (u ≠ [] ∧ ∃ t, t ++ u = shL)) ∧
    (∀ u, u ∈ (rightCandidates E L k).getD [] ↔
      (u ≠ shR ∧ ∃ t, u ++ t = shR)) ∧
    (∀ d u, leftDelim E L k = some d → u ≠ [] → (∃ t, t ++ u = shL) →
      isValidLeft E L u k = true →
      isValidLeft E L d k = true ∧ u.length ≤ d.length) := by
  have hcL : leftCandidates E L k = some (suffListOf shL) := by
    unfold leftCandidates
    rw [hminL]
    rfl
  have hcR : rightCandidates E L k = some (prefListOf shR) := by
    unfold rightCandidates
    rw [hminR]
    rfl
  refine ⟨?_, ?_, ?_⟩
  · intro u
    rw [hcL]
    exact memSuffList
  · intro u
    rw [hcR]
    exact memPrefList
  · intro d u hd hne hsuff hval
    have hu : u ∈ suffListOf shL := memSuffList.2 ⟨hne, hsuff⟩
    unfold leftDelim at hd
    rw [hcL] at hd
    simp only [Option.map_some'] at hd
    injection hd with hd
    cases hfind : (suffListOf shL).find? (fun v => isValidLeft E L v k) with
    | none =>
      rw [List.find?_eq_none] at hfind
      exact absurd hval (by simpa using hfind u hu)
    | some d0 =>
      rw [hfind] at hd
      simp at hd
      subst hd
      have hvd := List.find?_some hfind
      exact ⟨hvd, findMaxLen (suffListPairwise shL) hfind u hu hval⟩

/-- Witness for C4 (amended) at the scenario corpus, attribute 0: the
shortest left neighbor is `"Name: "`, the shortest right neighbor is
`" Age: "`, and the characterisations hold there. -/
theorem c4_candidates_amended_witness :
    minByLen? (leftNeighbors ex2 lab2 0) = some ("Name: ".toList) ∧
    minByLen? (rightNeighbors ex2 lab2 0) = some (" Age: ".toList) ∧
    ((∀ u, u ∈ (leftCandidates ex2 lab2 0).getD [] ↔
        (u ≠ [] ∧ ∃ t, t ++ u = "Name: ".toList)) ∧
     (∀ u, u ∈ (rightCandidates ex2 lab2 0).getD [] ↔
        (u ≠ " Age: ".toList ∧ ∃ t, u ++ t = " Age: ".toList)) ∧
     (∀ d u, leftDelim ex2 lab2 0 = some d → u ≠ [] →
        (∃ t, t ++ u = "Name: ".toList) →
        isValidLeft ex2 lab2 u 0 = true →
        isValidLeft ex2 lab2 d 0 = true ∧ u.length ≤ d.length)) :=
  ⟨by decide, by decide,
    c4_candidates_amended ex2 lab2 0 ("Name: ".toList) (" Age: ".toList)
      (by decide) (by decide)⟩

/-- Claim C5: `ProperSuffix(u, s)` returns `True` iff `s` ends with `u` and
`u` does not occur in `s` with the final occurrence excluded (that is, `u`
is not a substring of `s` shorn of its last `len(u)` characters); in
particular `ProperSuffix("cde", "abcde")` is `True` and
`ProperSuffix("de", "abcdede")` is `False`. -/
theorem c5_properSuffix_spec :
    (∀ u s : Doc, properSuffix u s = true ↔
      ((∃ t, t ++ u = s) ∧
        ¬ ∃ a b, a ++ u ++ b = s.take (s.length - u.length))) ∧
    properSuffix "cde".toList "abcde".toList = true ∧
    properSuffix "de".toList "abcdede".toList = false := by
  refine ⟨?_, by decide, by decide⟩
  intro u s
  unfold properSuffix
  rw [Bool.and_eq_true, isSuffixOfE, Bool.not_eq_true']
  cases u with
  | nil =>
    constructor
    · rintro ⟨h1, h2⟩
      rw [pyIn_nil] at h2
      exact Bool.noConfusion h2
    · rintro ⟨h1, h2⟩
      exact absurd ⟨[], s.take (s.length - ([] : Doc).length), by simp⟩ h2
  | cons a as =>
    rw [pySliceNegLen s (a :: as) (by simp), pyInF]

/-- Claim C6: on a well-formed nonempty training corpus construction never
raises, and for every attribute for which no candidate passes validation
the corresponding delimiter table entry is left as the empty-string
sentinel it was initialised to. -/
theorem c6_no_valid_candidate_silent
    (E : List Doc) (L : List LabelRow)
    (hE : E ≠ []) (hL : L ≠ []) (hEL : E.length = L.length)
    (hrows : ∀ row ∈ L, row.length = numAttr L) :
    ∃ ls rs, mkWrapper E L = Except.ok ⟨E, L, ls, rs⟩ ∧
      (∀ k c, k < numAttr L → leftCandidates E L k = some c →
        c.all (fun u => !(isValidLeft E L u k)) = true → ls.get? k = some []) ∧
      (∀ k c, k < numAttr L → rightCandidates E L k = some c →
        c.all (fun u => !(isValidRight E L u k)) = true → rs.get? k = some []) := by
  have hLlen : ¬ L.length = 0 := fun hc => hL (List.length_eq_zero.1 hc)
  obtain ⟨ls, hls⟩ := Option.isSome_iff_exists.1
    (delimsUpTo_isSome (fun k hk => leftDelim_isSome hE hL hk))
  obtain ⟨rs, hrs⟩ := Option.isSome_iff_exists.1
    (delimsUpTo_isSome (fun k hk => rightDelim_isSome hE hL hk))
  refine ⟨ls, rs, ?_, ?_, ?_⟩
  · unfold mkWrapper
    rw [if_neg hLlen, hls, hrs]
  · intro k c hk hc hall
    obtain ⟨hlen, hget⟩ := delimsUpTo_get? hls
    rw [hget k hk]
    unfold leftDelim
    rw [hc]
    simp only [Option.map_some']
    have hnone : c.find? (fun u => isValidLeft E L u k) = none := by
      rw [List.find?_eq_none]
      intro x hx
      have h2 := List.all_eq_true.1 hall x hx
      simp only [Bool.not_eq_true'] at h2
      simp [h2]
    rw [hnone]
    rfl
  · intro k c hk hc hall
    obtain ⟨hlen, hget⟩ := delimsUpTo_get? hrs
    rw [hget k hk]
    unfold rightDelim
    rw [hc]
    simp only [Option.map_some']
    have hnone : c.find? (fun u => isValidRight E L u k) = none := by
      rw [List.find?_eq_none]
      intro x hx
      have h2 := List.all_eq_true.1 hall x hx
      simp only [Bool.not_eq_true'] at h2
      simp [h2]
    rw [hnone]
    rfl

/-- Witness for C6: the single training document `"abXab"` with attribute
`X` at `[2, 3)` — both suffixes of the head `"ab"` recur in the tail
`"ab"`, so no left candidate validates, yet construction succeeds and
evaluation confirms `left[0] = ""`. -/
theorem c6_no_valid_candidate_silent_witness :
    (([exNV] : List Doc) ≠ []) ∧ (([labNV] : List LabelRow) ≠ []) ∧
    ([exNV] : List Doc).length = ([labNV] : List LabelRow).length ∧
    (∀ row ∈ ([labNV] : List LabelRow), row.length = numAttr [labNV]) ∧
    (∃ ls rs, mkWrapper [exNV] [labNV] = Except.ok ⟨[exNV], [labNV], ls, rs⟩ ∧
      (∀ k c, k < numAttr [labNV] → leftCandidates [exNV] [labNV] k = some c →
        c.all (fun u => !(isValidLeft [exNV] [labNV] u k)) = true →
        ls.get? k = some []) ∧
      (∀ k c, k < numAttr [labNV] → rightCandidates [exNV] [labNV] k = some c →
        c.all (fun u => !(isValidRight [exNV] [labNV] u k)) = true →
        rs.get? k = some [])) :=
  ⟨by decide, by decide, by decide, by decide,
    c6_no_valid_candidate_silent [exNV] [labNV] (by decide) (by decide)
      (by decide) (by decide)⟩

/-- Claim C7: construction with an empty label sequence fails immediately
with the `ValueError` message, before any learning, and produces no
wrapper. -/
theorem c7_empty_labels_error (E : List Doc) :
    mkWrapper E [] = Except.error ("No training examples provided") := rfl

/-- Claim C8: the extraction method never mutates the wrapper object — the
state-passing embedding of `execLR` returns the object state unchanged
(the method body assigns only its locals), so a second call on the same
document returns the identical result. -/
theorem c8_exec_no_mutation (w : Wrapper) (P : Doc) :
    (execLRS w P).1 = w ∧
      (execLRS (execLRS w P).1 P).2 = (execLRS w P).2 :=
  ⟨rfl, rfl⟩

/-- Claim C9: adding a training document whose right-neighbor string for
attribute `k` is strictly shorter than the current shortest, in a way that
does not contradict the validity constraints (validation still succeeds,
i.e. the newly chosen delimiter is not the fallback sentinel), yields a
right delimiter at least as long as the previous one, and that delimiter
is valid for the enlarged corpus.  The candidate scan is the embedding's
insertion-order determinisation of the Python set iteration: prefixes are
generated shortest-first, so the chosen delimiter is the shortest valid
candidate, and every candidate valid for the enlarged corpus is a
candidate valid for the original one. -/
theorem c9_right_delim_monotone
    (E : List Doc) (L : List LabelRow) (Pn : Doc) (Rn : LabelRow) (k : Nat)
    (sh dOld dNew : Doc)
    (hL : L ≠ []) (hEL : E.length = L.length) (hk : k < numAttr L)
    (hmin : minByLen? (rightNeighbors E L k) = some sh)
    (hshort : (rightNbOf (numAttr L) Pn Rn k).length < sh.length)
    (hOld : rightDelim E L k = some dOld)
    (hNew : rightDelim (E ++ [Pn]) (L ++ [Rn]) k = some dNew)
    (hsucc : dNew ≠ []) :
    dOld.length ≤ dNew.length ∧
      isValidRight (E ++ [Pn]) (L ++ [Rn]) dNew k = true := by
  set nb := rightNbOf (numAttr L) Pn Rn k with hnb
  have hnbrs : rightNeighbors (E ++ [Pn]) (L ++ [Rn]) k
      = rightNeighbors E L k ++ [nb] := rightNeighbors_concat Pn Rn hEL hL
  have hminle := minByLen?_le hmin
  have hmin2 : minByLen? (rightNeighbors (E ++ [Pn]) (L ++ [Rn]) k) = some nb := by
    rw [hnbrs]
    exact minByLen?_concat_lt (fun x hx => Nat.lt_of_lt_of_le hshort (hminle x hx))
  have hcand2 : rightCandidates (E ++ [Pn]) (L ++ [Rn]) k = some (prefListOf nb) := by
    unfold rightCandidates
    rw [hmin2]
    rfl
  have hcand1 : rightCandidates E L k = some (prefListOf sh) := by
    unfold rightCandidates
    rw [hmin]
    rfl
  unfold rightDelim at hNew
  rw [hcand2] at hNew
  simp only [Option.map_some'] at hNew
  injection hNew with hNew
  cases hfind2 : (prefListOf nb).find?
      (fun u => isValidRight (E ++ [Pn]) (L ++ [Rn]) u k) with
  | none =>
    rw [hfind2] at hNew
    simp at hNew
    exact absurd hNew hsucc
  | some d2 =>
    rw [hfind2] at hNew
    simp at hNew
    subst hNew
    have hvalid2 := List.find?_some hfind2
    have hmem2 : d2 ∈ prefListOf nb := List.mem_of_find?_eq_some hfind2
    refine ⟨?_, hvalid2⟩
    have hvalid1 : isValidRight E L d2 k = true :=
      isValidRight_concat Pn Rn hEL hL hvalid2
    obtain ⟨hne2, t2, ht2⟩ := memPrefList.1 hmem2
    have hlt2 : d2.length < nb.length := by
      have ht3 := congrArg List.length ht2
      rw [List.length_append] at ht3
      have htne : t2 ≠ [] := by
        rintro rfl
        rw [List.append_nil] at ht2
        exact hne2 ht2
      have ht4 := List.length_pos.2 htne
      omega
    have hshmem : sh ∈ rightNeighbors E L k := minByLen?_mem hmin
    have hpref : d2.isPrefixOf sh = true := by
      unfold isValidRight at hvalid1
      rw [Bool.and_eq_true] at hvalid1
      exact List.all_eq_true.1 hvalid1.2 sh hshmem
    have hmem1 : d2 ∈ prefListOf sh := by
      refine memPrefList.2 ⟨?_, (isPrefixOfE _ _).1 hpref⟩
      intro hc
      rw [hc] at hlt2
      omega
    unfold rightDelim at hOld
    rw [hcand1] at hOld
    simp only [Option.map_some'] at hOld
    injection hOld with hOld
    cases hfind1 : (prefListOf sh).find? (fun u => isValidRight E L u k) with
    | none =>
      rw [List.find?_eq_none] at hfind1
      exact absurd hvalid1 (by simpa using hfind1 d2 hmem1)
    | some d1 =>
      rw [hfind1] at hOld
      simp at hOld
      subst hOld
      exact findMinLen (prefListPairwise sh) hfind1 d2 hmem1 hvalid1

/-- Witness for C9: corpus `["aXbcd"]` with span `[1, 2)` chooses
`right[0] = "b"`; appending `"aYbc"` (right neighbor `"bc"`, strictly
shorter than `"bcd"`) still validates `"b"`, so the chosen delimiter keeps
its length and stays valid. -/
theorem c9_right_delim_monotone_witness :
    (([labM] : List LabelRow) ≠ []) ∧
    ([exM1] : List Doc).length = ([labM] : List LabelRow).length ∧
    0 < numAttr [labM] ∧
    minByLen? (rightNeighbors [exM1] [labM] 0) = some ("bcd".toList) ∧
    (rightNbOf (numAttr [labM]) exM2 labM 0).length < ("bcd".toList).length ∧
    rightDelim [exM1] [labM] 0 = some ("b".toList) ∧
    rightDelim ([exM1] ++ [exM2]) ([labM] ++ [labM]) 0 = some ("b".toList) ∧
    "b".toList ≠ ([] : Doc) ∧
    (("b".toList).length ≤ ("b".toList).length ∧
      isValidRight ([exM1] ++ [exM2]) ([labM] ++ [labM]) ("b".toList) 0 = true) :=
  ⟨by decide, by decide, by decide, by decide, by decide, by decide, by decide,
    by decide,
    c9_right_delim_monotone [exM1] [labM] exM2 labM 0 ("bcd".toList)
      ("b".toList) ("b".toList) (by decide) (by decide) (by decide) (by decide)
      (by decide) (by decide) (by decide) (by decide)⟩

/-- Claim C10: with at least one training document, the empty string never
validates as a right delimiter (`"" in s` holds for every attribute
instance, so condition 1 of `IsValidRight` fails); hence every delimiter
that passes validation is nonempty, and the first-valid scan can never
select the empty string — `right[k] = ""` only arises from the
no-valid-candidate fallback. -/
theorem c10_empty_right_invalid
    (E : List Doc) (L : List LabelRow) (k : Nat)
    (hE : E ≠ []) (hL : L ≠ []) (hk : k < numAttr L) :
    isValidRight E L [] k = false ∧
      (∀ u, isValidRight E L u k = true → u ≠ []) ∧
      (∀ c, rightCandidates E L k = some c →
        c.find? (fun u => isValidRight E L u k) ≠ some []) := by
  have h1 : isValidRight E L [] k = false := by
    unfold isValidRight
    cases E with
    | nil => exact absurd rfl hE
    | cons e E2 =>
      cases L with
      | nil => exact absurd rfl hL
      | cons l L2 =>
        unfold attributes docPairs
        rw [List.zip_cons_cons, List.map_cons, List.all_cons, pyIn_nil]
        simp
  refine ⟨h1, ?_, ?_⟩
  · intro u hu
    rintro rfl
    rw [h1] at hu
    exact Bool.noConfusion hu
  · intro c hc hfind
    have h2 := List.find?_some hfind
    simp only at h2
    rw [h1] at h2
    exact Bool.noConfusion h2

/-- Witness for C10 at the one-document corpus `["ab"]` with span
`[0, 1)`. -/
theorem c10_empty_right_invalid_witness :
    ((["ab".toList] : List Doc) ≠ []) ∧
    (([[(0, 1)]] : List LabelRow) ≠ []) ∧
    0 < numAttr [[(0, 1)]] ∧
    (isValidRight ["ab".toList] [[(0, 1)]] [] 0 = false ∧
      (∀ u, isValidRight ["ab".toList] [[(0, 1)]] u 0 = true → u ≠ []) ∧
      (∀ c, rightCandidates ["ab".toList] [[(0, 1)]] 0 = some c →
        c.find? (fun u => isValidRight ["ab".toList] [[(0, 1)]] u 0) ≠
          some [])) :=
  ⟨by decide, by decide, by decide,
    c10_empty_right_invalid ["ab".toList] [[(0, 1)]] 0 (by decide) (by decide)
      (by decide)⟩

end LRW
